import Mathlib

/-
Shallow embedding of the quilting-game rules engine (model-rs) and proofs
about it.  Rust `usize` values are modelled as `Nat`; where unsigned
wrap-around matters (release-mode semantics of `usize` arithmetic) it is made
explicit modulo `2 ^ 64`.  `Vec`/`VecDeque`/boxed slices are modelled as
`List`; `Result<T, PlayerError>` is `Except PlayerError T`.
-/

set_option autoImplicit false

namespace Quilting

/-! ## Geometry (src/position.rs) -/

/-- A position on the board or in a piece (`Position` in src/position.rs). -/
@[ext]
structure Position where
  x : Nat
  y : Nat
deriving Repr, DecidableEq, Inhabited

/-- Translates a position relative to another (`Position::translate`). -/
def Position.translate (p : Position) (other : Position) : Position :=
  ⟨p.x + other.x, p.y + other.y⟩

/-- The dimensions of a board or piece (`Dimension` in src/position.rs). -/
@[ext]
structure Dimension where
  width  : Nat
  height : Nat
deriving Repr, DecidableEq, Inhabited

/-- Is the given position within the given dimension (`Dimension::contains`)? -/
def Dimension.contains (d : Dimension) (p : Position) : Bool :=
  p.x < d.width && p.y < d.height

/-- Transposes (swaps) the width and height (`Dimension::transpose`). -/
def Dimension.transpose (d : Dimension) : Dimension :=
  ⟨d.height, d.width⟩

/-- Rotations of a piece (`Rotation` in src/position.rs). -/
inductive Rotation where
  | NoRotation
  | Clockwise90
  | Clockwise180
  | Clockwise270
deriving Repr, DecidableEq, Inhabited

/-- Whether the rotation is an even multiple of 90 degrees (`Rotation::is_even`). -/
def Rotation.is_even (r : Rotation) : Bool :=
  r = Rotation.NoRotation || r = Rotation.Clockwise180

/-- Applies a rotation to a dimension (`Rotation::apply_dim`). -/
def Rotation.apply_dim (r : Rotation) (d : Dimension) : Dimension :=
  if r.is_even then d else d.transpose

/-- Applies a rotation to a position relative to a dimension (`Rotation::apply`).
The Rust `usize` subtractions cannot underflow for positions inside `d`,
which is the only case the program exercises. -/
def Rotation.apply (r : Rotation) (d : Dimension) (p : Position) : Position :=
  match r with
  | .NoRotation   => ⟨p.x, p.y⟩
  | .Clockwise90  => ⟨d.height - p.y - 1, p.x⟩
  | .Clockwise180 => ⟨d.width - p.x - 1, d.height - p.y - 1⟩
  | .Clockwise270 => ⟨p.y, d.width - p.x - 1⟩

/-- Flips of a piece (`Flip` in src/position.rs). -/
inductive Flip where
  | Identity
  | Horizontal
deriving Repr, DecidableEq, Inhabited

/-- Applies a flip to a position within a dimension (`Flip::apply`). -/
def Flip.apply (f : Flip) (d : Dimension) (p : Position) : Position :=
  match f with
  | .Identity   => ⟨p.x, p.y⟩
  | .Horizontal => ⟨d.width - p.x - 1, p.y⟩

/-- Ways that a game piece can be positioned (`Transformation` in src/position.rs). -/
@[ext]
structure Transformation where
  rotation : Rotation
  flip     : Flip
deriving Repr, DecidableEq, Inhabited

/-- The identity transformation (`Transformation::identity`). -/
def Transformation.identity : Transformation :=
  ⟨Rotation.NoRotation, Flip.Identity⟩

/-- Applies a transformation to a dimension (`Transformation::apply_dim`). -/
def Transformation.apply_dim (t : Transformation) (d : Dimension) : Dimension :=
  t.rotation.apply_dim d

/-- Applies a transformation to a position within a dimension
(`Transformation::apply`): rotate the position, then flip it relative to the
rotated dimension. -/
def Transformation.apply (t : Transformation) (d : Dimension) (p : Position) : Position :=
  t.flip.apply (t.rotation.apply_dim d) (t.rotation.apply d p)

/-- Proof helper: the inverse of a transformation on the cells of `d`,
used to witness surjectivity. -/
def Transformation.unapply (t : Transformation) (d : Dimension) (q : Position) : Position :=
  match t.rotation, t.flip with
  | .NoRotation,   .Identity   => ⟨q.x, q.y⟩
  | .NoRotation,   .Horizontal => ⟨d.width - q.x - 1, q.y⟩
  | .Clockwise90,  .Identity   => ⟨q.y, d.height - q.x - 1⟩
  | .Clockwise90,  .Horizontal => ⟨q.y, q.x⟩
  | .Clockwise180, .Identity   => ⟨d.width - q.x - 1, d.height - q.y - 1⟩
  | .Clockwise180, .Horizontal => ⟨q.x, d.height - q.y - 1⟩
  | .Clockwise270, .Identity   => ⟨d.width - q.y - 1, q.x⟩
  | .Clockwise270, .Horizontal => ⟨d.width - q.y - 1, d.height - q.x - 1⟩

/-! ## Errors (src/result.rs) -/

/-- Errors that can be attributed to players (`PlayerError` in src/result.rs). -/
inductive PlayerError where
  | PlacementOverhangsRight
  | PlacementOverhangsBottom
  | PlacementOverlapsPiece
  | TakeOverDepth
  | OutOfPieces
deriving Repr, DecidableEq, Inhabited

/-- The quilting-game result type (`QResult<T>` in src/result.rs). -/
abbrev QResult (T : Type) := Except PlayerError T

/-! ## Pieces (src/piece.rs) -/

/-- A game piece (`Piece` in src/piece.rs).  Invariant of the source
constructor: the positions fit tightly within the dimension and are sorted;
none of the claims proved here depend on that invariant. -/
structure Piece where
  dimension : Dimension
  positions : List Position
  cost      : Nat
  distance  : Nat
  collect   : Nat
deriving Repr, DecidableEq, Inhabited

/-- The positions of a piece under a transformation (`Piece::positions`
together with the `Positions` iterator): each stored position, in stored
order, transformed relative to the stored dimension. -/
def Piece.positions_under (pc : Piece) (t : Transformation) : List Position :=
  pc.positions.map (t.apply pc.dimension)

/-! ## The quilt board (src/quilt_board.rs) -/

/-- The board on which the quilt is constructed (`QuiltBoard`).
Invariant (documented in the source): `rows.len() == height` and every row
has length `width`; see `QuiltBoard.wf`. -/
structure QuiltBoard where
  dimension : Dimension
  rows      : List (List Bool)
deriving Repr, DecidableEq, Inhabited

/-- The documented representation invariant of `QuiltBoard`. -/
def QuiltBoard.wf (b : QuiltBoard) : Prop :=
  b.rows.length = b.dimension.height ∧
  ∀ row ∈ b.rows, row.length = b.dimension.width

/-- Creates a new, empty board of the given dimensions (`QuiltBoard::new`). -/
def QuiltBoard.new (dimension : Dimension) : QuiltBoard :=
  ⟨dimension, List.replicate dimension.height (List.replicate dimension.width false)⟩

/-- Is the given position in bounds for the quilt board
(`QuiltBoard::is_position_in_bounds`)? -/
def QuiltBoard.is_position_in_bounds (b : QuiltBoard) (p : Position) : Bool :=
  b.dimension.contains p

/-- Reads the grid bit at a position; the Rust source indexes
`rows[y][x]` directly, which is always guarded by a bounds test. -/
def QuiltBoard.grid (b : QuiltBoard) (p : Position) : Bool :=
  (b.rows.getD p.y []).getD p.x false

/-- Is the given position covered by a piece (`QuiltBoard::is_position_covered`)?
The short-circuiting `&&` guards the row/column indexing. -/
def QuiltBoard.is_position_covered (b : QuiltBoard) (p : Position) : Bool :=
  b.is_position_in_bounds p && b.grid p

/-- The per-cell test of `QuiltBoard::can_add_piece`, in the source's fixed
order: right overhang, then bottom overhang, then overlap. -/
def QuiltBoard.cellError (b : QuiltBoard) (p : Position) : Option PlayerError :=
  if p.x ≥ b.dimension.width then some .PlacementOverhangsRight
  else if p.y ≥ b.dimension.height then some .PlacementOverhangsBottom
  else if b.is_position_covered p then some .PlacementOverlapsPiece
  else none

/-- The cell loop of `QuiltBoard::can_add_piece`: returns the first failing
cell's error, short-circuiting, or `Ok(())`. -/
def QuiltBoard.check_cells (b : QuiltBoard) : List Position → QResult Unit
  | [] => .ok ()
  | p :: rest =>
    match b.cellError p with
    | some e => .error e
    | none   => b.check_cells rest

/-- Can the given piece be added at the given position under the given
transformation (`QuiltBoard::can_add_piece`)?  The source translates each
transformed position by `position` inside the loop; here the translation is
mapped over the list first, which yields the same sequence of cells. -/
def QuiltBoard.can_add_piece (b : QuiltBoard) (position : Position) (piece : Piece)
    (transformation : Transformation) : QResult Unit :=
  b.check_cells ((piece.positions_under transformation).map (fun p => p.translate position))

/-- One write `rows[y][x] = true` of `QuiltBoard::add_piece`.  `List.set`
out of range is a no-op; the source only writes cells that
`can_add_piece` has already bounds-checked. -/
def QuiltBoard.set_cell (rows : List (List Bool)) (y x : Nat) : List (List Bool) :=
  rows.set y ((rows.getD y []).set x true)

/-- Adds the given piece at the specified position under the given
transformation (`QuiltBoard::add_piece`): re-validates via `can_add_piece`
and only on success marks every transformed-and-translated cell covered.
The mutated board is returned alongside the result. -/
def QuiltBoard.add_piece (b : QuiltBoard) (position : Position) (piece : Piece)
    (transformation : Transformation) : QuiltBoard × QResult Unit :=
  match b.can_add_piece position piece transformation with
  | .error e => (b, .error e)
  | .ok ()   =>
    ({ b with
       rows := (piece.positions_under transformation).foldl
         (fun rows p => set_cell rows (position.y + p.y) (position.x + p.x)) b.rows },
     .ok ())

/-- The `usize` modulus: Rust `usize` arithmetic is modulo `2 ^ 64`. -/
def USIZE : Nat := 2 ^ 64

/-- Wrapping `usize` subtraction (release-mode semantics of `a - b`). -/
def wrapSub (a b : Nat) : Nat := (a + USIZE - b) % USIZE

/-- Wrapping `usize` addition (release-mode semantics of `a + b`). -/
def wrapAdd (a b : Nat) : Nat := (a + b) % USIZE

/-- Is there a `size`-by-`size` square covered with its upper left at the
given position (`QuiltBoard::is_square_covered_at`)?  The source iterates
`position.y .. position.y + size` and `position.x .. position.x + size`;
the upper bounds are `usize` sums, which wrap modulo `2 ^ 64`, and a Rust
range whose end is below its start is empty — so the count of iterations is
the truncated difference `wrapAdd position.y size - position.y` (and
likewise for x). -/
def QuiltBoard.is_square_covered_at (b : QuiltBoard) (position : Position) (size : Nat) : Bool :=
  (List.range (wrapAdd position.y size - position.y)).all fun dy =>
    (List.range (wrapAdd position.x size - position.x)).all fun dx =>
      b.is_position_covered ⟨position.x + dx, position.y + dy⟩

/-- Is there a `size`-by-`size` square covered (`QuiltBoard::is_square_covered`)?
The source computes the anchor ranges as `dimension.height - size + 1` and
`dimension.width - size + 1` in `usize` arithmetic, which wraps modulo
`2 ^ 64` when `size` exceeds the dimension. -/
def QuiltBoard.is_square_covered (b : QuiltBoard) (size : Nat) : Bool :=
  (List.range ((wrapSub b.dimension.height size + 1) % USIZE)).any fun y =>
    (List.range ((wrapSub b.dimension.width size + 1) % USIZE)).any fun x =>
      b.is_square_covered_at ⟨x, y⟩ size

/-! ## The piece queue (src/piece_board.rs) -/

/-- The queue of pieces to be taken (`PieceBoard`), a `VecDeque<Piece>`
(front is the list head) plus the configured maximum take depth. -/
structure PieceBoard where
  piece_queue : List Piece
  depth       : Nat
deriving Repr, DecidableEq, Inhabited

/-- Checks whether no pieces remain (`PieceBoard::is_empty`). -/
def PieceBoard.is_empty (pb : PieceBoard) : Bool :=
  pb.piece_queue.isEmpty

/-- Takes the `depth`th piece, if possible (`PieceBoard::take`).  On success
the source pops the first `depth` pieces into a stack, pops the result, and
pushes the stack back in reverse, leaving the skipped pieces at the front in
their original order: the queue becomes
`piece_queue.take depth ++ piece_queue.drop (depth + 1)` and the result is
the element at index `depth`.  The untouched queue is returned on error. -/
def PieceBoard.take (pb : PieceBoard) (depth : Nat) : PieceBoard × QResult Piece :=
  if depth > pb.depth then
    (pb, .error .TakeOverDepth)
  else if depth ≥ pb.piece_queue.length then
    (pb, .error .OutOfPieces)
  else
    ({ pb with piece_queue := pb.piece_queue.take depth ++ pb.piece_queue.drop (depth + 1) },
     .ok (pb.piece_queue.getD depth default))

/-! ## The shuffle (src/piece_board.rs and src/player.rs) -/

/-- One `Vec::swap`/`VecDeque::swap` of the elements at indices `i` and `j`
(a no-op on out-of-range indices, which the shuffle never produces). -/
def swapAt {α : Type} (l : List α) (i j : Nat) : List α :=
  match l.get? i, l.get? j with
  | some a, some b => (l.set i b).set j a
  | _, _ => l

/-- The shuffle of src/piece_board.rs and src/player.rs (the two copies are
identical).  The injected random source is modelled by `src : Nat → Nat`; at
loop index `i` the source code draws `Range::new(0, i).ind_sample(rng)`,
a uniform sample from the half-open interval `[0, i)`, modelled here as
`src i % i`.  The loop runs `for i in (1 .. len()).rev()`, that is
`i = len - 1, len - 2, ..., 1`. -/
def shuffle_aux {α : Type} (src : Nat → Nat) : Nat → List α → List α
  | 0,     v => v
  | i + 1, v => shuffle_aux src i (swapAt v (i + 1) (src (i + 1) % (i + 1)))

/-- The full shuffle: runs `shuffle_aux` from `len - 1` down to `1`. -/
def shuffle {α : Type} (src : Nat → Nat) (v : List α) : List α :=
  shuffle_aux src (v.length - 1) v

/-! ## Players (src/player.rs) -/

/-- A game player (`Player`), an opaque index. -/
structure Player where
  id : Nat
deriving Repr, DecidableEq, Inhabited

/-! ## The time board (src/time_board.rs) -/

/-- A single square on the time board (`Square`).  `players` models the
`PlayOrder` stack: a `Vec<Player>` whose top is the LAST element (`push`
appends, `pop` removes the last element, the `Players` iterator yields the
top first). -/
structure Square where
  piece   : Option Piece
  collect : Bool
  players : List Player
deriving Repr, DecidableEq, Inhabited

/-- Does this square have a player on it (`Square::has_player`)? -/
def Square.has_player (sq : Square) : Bool :=
  ! sq.players.isEmpty

/-- The result of moving along the time board (`MoveResult`). -/
structure MoveResult where
  pieces   : List Piece
  collects : Nat
  distance : Nat
deriving Repr, DecidableEq, Inhabited

/-- The time board (`TimeBoard`). -/
structure TimeBoard where
  squares : List Square
deriving Repr, DecidableEq, Inhabited

/-- The core of `TimeBoard::from_slice` once serde has produced the square
list: the given play order is stored on square 0 (the source asserts at
least two players and panics on an empty square list). -/
def TimeBoard.from_squares (play_order : List Player) (squares : List Square) : TimeBoard :=
  ⟨squares.set 0 { squares.getD 0 default with players := play_order }⟩

/-- The index of the last square (`TimeBoard::index_of_last_square`). -/
def TimeBoard.index_of_last_square (tb : TimeBoard) : Nat :=
  tb.squares.length - 1

/-- The board position of the player whose turn it is
(`TimeBoard::index_of_current_player`): the first occupied square.  The
source's loop is `unreachable!` past the end, which `findIdx` models by
returning the length; the theorems assume a player exists. -/
def TimeBoard.index_of_current_player (tb : TimeBoard) : Nat :=
  tb.squares.findIdx (fun sq => sq.has_player)

/-- Is the current game over (`TimeBoard::is_game_over`)? -/
def TimeBoard.is_game_over (tb : TimeBoard) : Bool :=
  tb.index_of_current_player == tb.index_of_last_square

/-- The player whose turn it is (`TimeBoard::current_player`): the top of
the stack on the first occupied square, or `None` when the game is over. -/
def TimeBoard.current_player (tb : TimeBoard) : Option Player :=
  let i := tb.index_of_current_player
  if i == tb.index_of_last_square then none
  else (tb.squares.getD i default).players.getLast?

/-- The board position of the player whose turn will be next
(`TimeBoard::index_of_next_player`): the current square when it holds more
than one token, else the next occupied square at a higher index (the
source's loop is `unreachable!` past the end, modelled by `findIdx` on the
dropped suffix). -/
def TimeBoard.index_of_next_player (tb : TimeBoard) : Nat :=
  let first_index := tb.index_of_current_player
  if 1 < (tb.squares.getD first_index default).players.length then first_index
  else first_index + 1 + (tb.squares.drop (first_index + 1)).findIdx (fun sq => sq.has_player)

/-- The side-effect sweep of `TimeBoard::move_player` over the slice
`squares[start+1 ..= stop]`, left to right: `Option::take` each square's
piece grant into the result list and count the persistent collect flags.
Returns the updated slice, the pieces in slice order, and the count. -/
def sweep : List Square → List Square × List Piece × Nat
  | [] => ([], [], 0)
  | sq :: rest =>
    let r := sweep rest
    ({ sq with piece := none } :: r.1,
     (match sq.piece with
      | some p => p :: r.2.1
      | none   => r.2.1),
     if sq.collect then r.2.2 + 1 else r.2.2)

/-- Moves the current player (`TimeBoard::move_player`).  The source
asserts `distance > 0` and `!is_game_over()`; those are preconditions of
the theorems below, and `pop().unwrap()` is modelled by `getLast?.getD`,
which the preconditions keep honest.  The mutated board is returned
alongside the `MoveResult`. -/
def TimeBoard.move_player (tb : TimeBoard) (distance : Nat) : TimeBoard × MoveResult :=
  let start := tb.index_of_current_player
  let stop := min (start + distance) tb.index_of_last_square
  let sq_start := tb.squares.getD start default
  let player := sq_start.players.getLast?.getD default
  let squares1 := tb.squares.set start { sq_start with players := sq_start.players.dropLast }
  let sq_stop := squares1.getD stop default
  let squares2 := squares1.set stop { sq_stop with players := sq_stop.players ++ [player] }
  let swept := sweep ((squares2.drop (start + 1)).take (stop - start))
  (⟨squares2.take (start + 1) ++ swept.1 ++ squares2.drop (stop + 1)⟩,
   ⟨swept.2.1, swept.2.2, stop - start⟩)

/-- The total number of player tokens on the board (proof helper). -/
def TimeBoard.totalTokens (tb : TimeBoard) : Nat :=
  (tb.squares.map (fun sq => sq.players.length)).sum

/-- All player tokens on the board, square by square (proof helper). -/
def TimeBoard.allPlayers (tb : TimeBoard) : List Player :=
  (tb.squares.map (fun sq => sq.players)).flatten

/-- A small concrete track used to instantiate theorems: two tokens on
square 0 (top of stack last), a collect flag on square 2, and a piece grant
on square 3. -/
def exampleBoard : TimeBoard :=
  ⟨[⟨none, false, [⟨1⟩, ⟨0⟩]⟩,
    ⟨none, false, []⟩,
    ⟨none, true, []⟩,
    ⟨some ⟨⟨1, 1⟩, [⟨0, 0⟩], 0, 0, 0⟩, false, []⟩,
    ⟨none, false, []⟩]⟩

/-! ## Theorems -/

/-- C6: for every dimension `d` and transformation `t`, the map
`p ↦ t.apply d p` restricted to the cells of `d` is a bijection onto the
cells of `t.apply_dim d`: every cell of `d` lands in a cell of the
transformed dimension, every cell of the transformed dimension is hit by
exactly one cell of `d`, and the identity transformation maps every position
and every dimension to itself. -/
theorem claim6_transformation_apply_bijection (t : Transformation) (d : Dimension) :
    (∀ p : Position, d.contains p → (t.apply_dim d).contains (t.apply d p)) ∧
    (∀ q : Position, (t.apply_dim d).contains q →
      ∃! p : Position, d.contains p ∧ t.apply d p = q) ∧
    (∀ (d2 : Dimension) (p : Position),
      Transformation.identity.apply d2 p = p ∧ Transformation.identity.apply_dim d2 = d2) := by
  refine ⟨?_, ?_, ?_⟩
  · intro p hp
    obtain ⟨r, f⟩ := t
    cases r <;> cases f <;>
      simp_all [Dimension.contains, Transformation.apply, Transformation.apply_dim,
        Rotation.apply, Rotation.apply_dim, Rotation.is_even, Flip.apply,
        Dimension.transpose] <;>
      omega
  · intro q hq
    refine ⟨t.unapply d q, ⟨?_, ?_⟩, ?_⟩
    · obtain ⟨r, f⟩ := t
      cases r <;> cases f <;>
        simp_all [Dimension.contains, Transformation.apply, Transformation.apply_dim,
          Transformation.unapply, Rotation.apply, Rotation.apply_dim, Rotation.is_even,
          Flip.apply, Dimension.transpose] <;>
        omega
    · obtain ⟨r, f⟩ := t
      cases r <;> cases f <;>
        simp_all [Dimension.contains, Transformation.apply, Transformation.apply_dim,
          Transformation.unapply, Rotation.apply, Rotation.apply_dim, Rotation.is_even,
          Flip.apply, Dimension.transpose, Position.ext_iff] <;>
        omega
    · intro p hp
      obtain ⟨r, f⟩ := t
      cases r <;> cases f <;>
        simp_all [Dimension.contains, Transformation.apply, Transformation.apply_dim,
          Transformation.unapply, Rotation.apply, Rotation.apply_dim, Rotation.is_even,
          Flip.apply, Dimension.transpose, Position.ext_iff] <;>
        omega
  · intro d2 p
    constructor
    · simp [Transformation.identity, Transformation.apply, Transformation.apply_dim,
        Rotation.apply, Rotation.apply_dim, Rotation.is_even, Flip.apply]
    · simp [Transformation.identity, Transformation.apply_dim, Rotation.apply_dim,
        Rotation.is_even]

/-- The cell loop returns `Ok(())` exactly when no cell fails. -/
theorem check_cells_ok_iff (b : QuiltBoard) (l : List Position) :
    b.check_cells l = .ok () ↔ ∀ p ∈ l, b.cellError p = none := by
  induction l with
  | nil => simp [QuiltBoard.check_cells]
  | cons p rest ih =>
    simp only [QuiltBoard.check_cells]
    cases hp : b.cellError p with
    | some e => simp [hp]
    | none => simp [hp, ih]

/-- The cell loop returns `Err(e)` exactly when some cell fails with `e` and
every earlier cell passes: the first failing cell determines the error. -/
theorem check_cells_error_iff (b : QuiltBoard) (l : List Position) (e : PlayerError) :
    b.check_cells l = .error e ↔
      ∃ i, i < l.length ∧ b.cellError (l.getD i ⟨0, 0⟩) = some e ∧
        ∀ j, j < i → b.cellError (l.getD j ⟨0, 0⟩) = none := by
  induction l with
  | nil => simp [QuiltBoard.check_cells]
  | cons p rest ih =>
    simp only [QuiltBoard.check_cells]
    cases hp : b.cellError p with
    | some e2 =>
      simp only [hp]
      constructor
      · intro h
        have he : e2 = e := by simpa using h
        exact ⟨0, by simp, by simpa [List.getD_cons_zero, hp] using he, by omega⟩
      · rintro ⟨i, hi, he, hall⟩
        cases i with
        | zero =>
          simp only [List.getD_cons_zero, hp, Option.some.injEq] at he
          rw [he]
        | succ i =>
          have h0 := hall 0 (Nat.succ_pos i)
          simp [List.getD_cons_zero, hp] at h0
    | none =>
      simp only [hp]
      rw [ih]
      constructor
      · rintro ⟨i, hi, he, hall⟩
        refine ⟨i + 1, by simp; omega, by simpa [List.getD_cons_succ] using he, ?_⟩
        intro j hj
        cases j with
        | zero => simpa [List.getD_cons_zero] using hp
        | succ j => simpa [List.getD_cons_succ] using hall j (by omega)
      · rintro ⟨i, hi, he, hall⟩
        cases i with
        | zero => simp [List.getD_cons_zero, hp] at he
        | succ i =>
          refine ⟨i, by simp at hi; omega, by simpa [List.getD_cons_succ] using he, ?_⟩
          intro j hj
          simpa [List.getD_cons_succ] using hall (j + 1) (by omega)

/-- C2: `can_add_piece` tests the piece's transformed-and-translated cells
in canonical position order and returns the error of the first failing cell;
each cell is tested in the fixed order right-overhang, bottom-overhang,
overlap; the call returns `Ok(())` exactly when no cell fails. -/
theorem claim2_can_add_piece_first_failure (b : QuiltBoard) (position : Position)
    (piece : Piece) (t : Transformation) :
    (∀ e : PlayerError, b.can_add_piece position piece t = .error e ↔
      ∃ i, i < ((piece.positions_under t).map (fun p => p.translate position)).length ∧
        b.cellError (((piece.positions_under t).map
          (fun p => p.translate position)).getD i ⟨0, 0⟩) = some e ∧
        ∀ j, j < i → b.cellError (((piece.positions_under t).map
          (fun p => p.translate position)).getD j ⟨0, 0⟩) = none) ∧
    (b.can_add_piece position piece t = .ok () ↔
      ∀ p ∈ (piece.positions_under t).map (fun p => p.translate position),
        b.cellError p = none) ∧
    (∀ p : Position,
      (b.cellError p = some .PlacementOverhangsRight ↔ b.dimension.width ≤ p.x) ∧
      (b.cellError p = some .PlacementOverhangsBottom ↔
        p.x < b.dimension.width ∧ b.dimension.height ≤ p.y) ∧
      (b.cellError p = some .PlacementOverlapsPiece ↔
        p.x < b.dimension.width ∧ p.y < b.dimension.height ∧
          b.is_position_covered p = true) ∧
      (b.cellError p = none ↔
        p.x < b.dimension.width ∧ p.y < b.dimension.height ∧
          b.is_position_covered p = false)) := by
  refine ⟨fun e => check_cells_error_iff b _ e, check_cells_ok_iff b _, ?_⟩
  intro p
  unfold QuiltBoard.cellError
  refine ⟨?_, ?_, ?_, ?_⟩ <;> split_ifs <;> simp_all

/-- A grid bit that reads `true` is within the row and column ranges. -/
theorem grid_true_bounds (rows : List (List Bool)) (y x : Nat)
    (h : (rows.getD y []).getD x false = true) :
    y < rows.length ∧ x < (rows.getD y []).length := by
  by_cases hy : y < rows.length
  · refine ⟨hy, ?_⟩
    by_cases hx : x < (rows.getD y []).length
    · exact hx
    · rw [List.getD_eq_default _ _ (Nat.le_of_not_lt hx)] at h
      exact absurd h (by simp)
  · rw [List.getD_eq_default rows [] (Nat.le_of_not_lt hy)] at h
    simp at h

/-- Writing one cell does not change the number of rows. -/
theorem set_cell_length (rows : List (List Bool)) (y x : Nat) :
    (QuiltBoard.set_cell rows y x).length = rows.length := by
  simp [QuiltBoard.set_cell]

/-- Writing one cell does not change any row's length. -/
theorem set_cell_row_length (rows : List (List Bool)) (y x y2 : Nat) :
    ((QuiltBoard.set_cell rows y x).getD y2 []).length = (rows.getD y2 []).length := by
  unfold QuiltBoard.set_cell
  rw [List.getD_eq_getElem?_getD (rows.set y ((rows.getD y []).set x true)),
    List.getElem?_set]
  by_cases hy : y = y2
  · subst hy
    by_cases hlen : y < rows.length
    · rw [if_pos rfl, if_pos hlen]
      simp [List.getD_eq_getElem?_getD]
    · rw [if_pos rfl, if_neg hlen, Option.getD_none,
        List.getD_eq_default rows [] (Nat.le_of_not_lt hlen)]
  · rw [if_neg hy, ← List.getD_eq_getElem?_getD]

/-- The grid bit after one cell write: `true` at the written in-range cell,
the old bit everywhere else. -/
theorem set_cell_grid (rows : List (List Bool)) (y x qy qx : Nat) :
    ((QuiltBoard.set_cell rows y x).getD qy []).getD qx false
      = if qy = y ∧ qx = x ∧ y < rows.length ∧ x < (rows.getD y []).length
        then true else (rows.getD qy []).getD qx false := by
  unfold QuiltBoard.set_cell
  rw [List.getD_eq_getElem?_getD (rows.set y ((rows.getD y []).set x true)),
    List.getElem?_set]
  by_cases hy : y = qy
  · subst hy
    by_cases hlen : y < rows.length
    · rw [if_pos rfl, if_pos hlen, Option.getD_some,
        List.getD_eq_getElem?_getD ((rows.getD y []).set x true), List.getElem?_set]
      by_cases hx : x = qx
      · subst hx
        by_cases hxlen : x < (rows.getD y []).length
        · rw [if_pos rfl, if_pos hxlen, Option.getD_some, if_pos ⟨rfl, rfl, hlen, hxlen⟩]
        · rw [if_pos rfl, if_neg hxlen, Option.getD_none, if_neg (by tauto),
            List.getD_eq_default _ _ (Nat.le_of_not_lt hxlen)]
      · rw [if_neg hx, if_neg (by tauto), ← List.getD_eq_getElem?_getD]
    · rw [if_pos rfl, if_neg hlen, Option.getD_none, if_neg (by tauto),
        List.getD_eq_default rows [] (Nat.le_of_not_lt hlen)]
  · rw [if_neg hy, if_neg (by tauto), ← List.getD_eq_getElem?_getD]

/-- Writing one cell leaves every other cell bit unchanged. -/
theorem set_cell_grid_other (rows : List (List Bool)) (y x : Nat) (q : Position)
    (h : ¬ (q.x = x ∧ q.y = y)) :
    ((QuiltBoard.set_cell rows y x).getD q.y []).getD q.x false
      = (rows.getD q.y []).getD q.x false := by
  rw [set_cell_grid, if_neg (by tauto)]

/-- Writing a cell within range makes its bit `true`. -/
theorem set_cell_grid_self (rows : List (List Bool)) (y x : Nat)
    (hy : y < rows.length) (hx : x < (rows.getD y []).length) :
    ((QuiltBoard.set_cell rows y x).getD y []).getD x false = true := by
  rw [set_cell_grid, if_pos ⟨rfl, rfl, hy, hx⟩]

/-- Writing one cell never turns a `true` bit off. -/
theorem set_cell_grid_mono (rows : List (List Bool)) (y x : Nat) (q : Position)
    (h : (rows.getD q.y []).getD q.x false = true) :
    ((QuiltBoard.set_cell rows y x).getD q.y []).getD q.x false = true := by
  rw [set_cell_grid]
  split_ifs with hc
  · rfl
  · exact h

/-- The cell-writing fold never turns a `true` bit off. -/
theorem foldl_set_grid_mono (cells : List Position) (rows : List (List Bool))
    (q : Position) (h : (rows.getD q.y []).getD q.x false = true) :
    (((cells.foldl (fun r c => QuiltBoard.set_cell r c.y c.x) rows).getD q.y []).getD
      q.x false) = true := by
  induction cells generalizing rows with
  | nil => simpa using h
  | cons c cs ih =>
    simp only [List.foldl_cons]
    exact ih _ (set_cell_grid_mono rows c.y c.x q h)

/-- The cell-writing fold leaves every position outside the written cells
unchanged. -/
theorem foldl_set_grid_other (cells : List Position) (rows : List (List Bool))
    (q : Position) (h : ∀ c ∈ cells, ¬ (q.x = c.x ∧ q.y = c.y)) :
    (((cells.foldl (fun r c => QuiltBoard.set_cell r c.y c.x) rows).getD q.y []).getD
      q.x false) = (rows.getD q.y []).getD q.x false := by
  induction cells generalizing rows with
  | nil => simp
  | cons c cs ih =>
    simp only [List.foldl_cons]
    rw [ih _ (fun c2 hc2 => h c2 (List.mem_cons_of_mem c hc2))]
    exact set_cell_grid_other rows c.y c.x q (h c (List.mem_cons_self c cs))

/-- The cell-writing fold sets every written in-range cell to `true`. -/
theorem foldl_set_grid_covers (cells : List Position) (rows : List (List Bool))
    (q : Position) (hq : q ∈ cells)
    (hbounds : ∀ c ∈ cells, c.y < rows.length ∧ c.x < (rows.getD c.y []).length) :
    (((cells.foldl (fun r c => QuiltBoard.set_cell r c.y c.x) rows).getD q.y []).getD
      q.x false) = true := by
  induction cells generalizing rows with
  | nil => cases hq
  | cons c cs ih =>
    simp only [List.foldl_cons]
    rcases List.mem_cons.mp hq with hqc | hqcs
    · subst hqc
      obtain ⟨h1, h2⟩ := hbounds q (List.mem_cons_self q cs)
      exact foldl_set_grid_mono cs _ q (set_cell_grid_self rows q.y q.x h1 h2)
    · refine ih _ hqcs ?_
      intro c2 hc2
      obtain ⟨h1, h2⟩ := hbounds c2 (List.mem_cons_of_mem c hc2)
      rw [set_cell_length, set_cell_row_length]
      exact ⟨h1, h2⟩

/-- The fold of `add_piece` over the raw transformed positions equals the
same fold over the translated cells. -/
theorem add_piece_fold_eq (pc : Piece) (t : Transformation) (position : Position)
    (rows : List (List Bool)) :
    (pc.positions_under t).foldl
        (fun r p => QuiltBoard.set_cell r (position.y + p.y) (position.x + p.x)) rows
      = ((pc.positions_under t).map (fun p => p.translate position)).foldl
          (fun r c => QuiltBoard.set_cell r c.y c.x) rows := by
  rw [List.foldl_map]
  congr 1
  funext r p
  simp only [Position.translate]
  rw [Nat.add_comm position.y p.y, Nat.add_comm position.x p.x]

/-- C3: `add_piece` is atomic on failure and complete on success — on error
the board is exactly as before, and on success every
transformed-and-translated cell of the piece is covered afterwards while
every other position is unchanged; `take` on error leaves the queue exactly
as before. -/
theorem claim3_add_piece_take_atomic :
    (∀ (b : QuiltBoard) (position : Position) (piece : Piece) (t : Transformation)
        (e : PlayerError),
      (b.add_piece position piece t).2 = .error e →
        (b.add_piece position piece t).1 = b) ∧
    (∀ (b : QuiltBoard) (position : Position) (piece : Piece) (t : Transformation),
      b.wf → (b.add_piece position piece t).2 = .ok () →
      (∀ q ∈ (piece.positions_under t).map (fun p => p.translate position),
        (b.add_piece position piece t).1.is_position_covered q = true) ∧
      (∀ q : Position,
        q ∉ (piece.positions_under t).map (fun p => p.translate position) →
        (b.add_piece position piece t).1.is_position_covered q
          = b.is_position_covered q)) ∧
    (∀ (pb : PieceBoard) (d : Nat) (e : PlayerError),
      (pb.take d).2 = .error e → (pb.take d).1 = pb) := by
  refine ⟨?_, ?_, ?_⟩
  · intro b position piece t e h
    unfold QuiltBoard.add_piece at h ⊢
    cases hc : b.can_add_piece position piece t with
    | error e2 => simp [hc]
    | ok u => cases u; simp [hc] at h
  · intro b position piece t hwf hok
    cases hc : b.can_add_piece position piece t with
    | error e2 => simp [QuiltBoard.add_piece, hc] at hok
    | ok u =>
      cases u
      have hcells := (check_cells_ok_iff b _).mp hc
      have hbounds : ∀ c ∈ (piece.positions_under t).map (fun p => p.translate position),
          c.y < b.rows.length ∧ c.x < (b.rows.getD c.y []).length := by
        intro c hcmem
        have hcell := hcells c hcmem
        unfold QuiltBoard.cellError at hcell
        split_ifs at hcell with h1 h2 h3
        have hy : c.y < b.rows.length := by rw [hwf.1]; omega
        refine ⟨hy, ?_⟩
        have : (b.rows.getD c.y []).length = b.dimension.width := by
          rw [List.getD_eq_getElem b.rows [] hy]
          exact hwf.2 _ (List.getElem_mem hy)
        omega
      have hboard : (b.add_piece position piece t).1
          = { b with rows := (((piece.positions_under t).map
              (fun p => p.translate position)).foldl
                (fun r c => QuiltBoard.set_cell r c.y c.x) b.rows) } := by
        simp only [QuiltBoard.add_piece, hc]
        rw [add_piece_fold_eq]
      constructor
      · intro q hq
        have hcell := hcells q hq
        unfold QuiltBoard.cellError at hcell
        split_ifs at hcell with h1 h2 h3
        rw [hboard]
        simp only [QuiltBoard.is_position_covered, QuiltBoard.is_position_in_bounds,
          QuiltBoard.grid, Dimension.contains]
        rw [foldl_set_grid_covers _ _ _ hq hbounds]
        simp
        omega
      · intro q hq
        rw [hboard]
        simp only [QuiltBoard.is_position_covered, QuiltBoard.is_position_in_bounds,
          QuiltBoard.grid, Dimension.contains]
        rw [foldl_set_grid_other]
        intro c hc2 hcoord
        exact hq (by
          have : q = c := by
            ext
            · exact hcoord.1
            · exact hcoord.2
          rw [this]; exact hc2)
  · intro pb d e h
    unfold PieceBoard.take at h ⊢
    split_ifs at h ⊢ <;> simp_all

/-- A wrapped `usize` sum that does not overflow counts exactly `sz`
iterations. -/
theorem wrapAdd_count (a sz : Nat) (h : a + sz < USIZE) : wrapAdd a sz - a = sz := by
  unfold wrapAdd
  rw [Nat.mod_eq_of_lt h]
  omega

/-- At an anchor whose cell ranges do not overflow, `is_square_covered_at`
scans the plain `size`-by-`size` block. -/
theorem covered_at_unwrapped (b : QuiltBoard) (p : Position) (size : Nat)
    (hy : p.y + size < USIZE) (hx : p.x + size < USIZE) :
    b.is_square_covered_at p size
      = ((List.range size).all fun dy =>
          (List.range size).all fun dx =>
            b.is_position_covered ⟨p.x + dx, p.y + dy⟩) := by
  unfold QuiltBoard.is_square_covered_at
  rw [wrapAdd_count p.y size hy, wrapAdd_count p.x size hx]

/-- At a non-overflowing anchor, a covered square of side `s2` contains a
covered square of side `s ≤ s2`. -/
theorem is_square_covered_at_sub (b : QuiltBoard) (p : Position) (s s2 : Nat)
    (hy : p.y + s2 < USIZE) (hx : p.x + s2 < USIZE) (hss : s ≤ s2)
    (h : b.is_square_covered_at p s2 = true) :
    b.is_square_covered_at p s = true := by
  rw [covered_at_unwrapped b p s2 hy hx] at h
  rw [covered_at_unwrapped b p s (by omega) (by omega)]
  simp only [List.all_eq_true, List.mem_range] at h ⊢
  intro dy hdy dx hdx
  exact h dy (by omega) dx (by omega)

/-- For sizes within a `usize`-bounded dimension the anchor count is the
exact `dim - size + 1`. -/
theorem wrap_count_exact (a sz : Nat) (hsz : sz ≤ a) (ha : a + 1 < USIZE) :
    (wrapSub a sz + 1) % USIZE = a - sz + 1 := by
  unfold wrapSub
  have h1 : a + USIZE - sz = (a - sz) + USIZE := by omega
  rw [h1, Nat.add_mod_right, Nat.mod_eq_of_lt (show a - sz < USIZE by omega),
    Nat.mod_eq_of_lt (show a - sz + 1 < USIZE by omega)]

/-- C7 counterexample: on an empty 2-by-2 board `is_square_covered 3` is
`false` (the anchor bound `2 - 3 + 1` wraps to `0`), yet `is_square_covered
4` is `true`: the anchor bound wraps to `2 ^ 64 - 1`, and at the anchor
`(0, 2 ^ 64 - 4)` the cell range `y .. y + 4` wraps past zero and is empty,
so the anchor is vacuously covered.  The claim, as stated for all sizes,
fails on the code. -/
theorem claim7_is_square_covered_monotone_counterexample :
    (QuiltBoard.new ⟨2, 2⟩).is_square_covered 3 = false ∧
    (QuiltBoard.new ⟨2, 2⟩).is_square_covered 4 = true := by
  constructor
  · decide
  · unfold QuiltBoard.is_square_covered
    rw [List.any_eq_true]
    refine ⟨USIZE - 4, List.mem_range.mpr (by decide), ?_⟩
    rw [List.any_eq_true]
    refine ⟨0, List.mem_range.mpr (by decide), ?_⟩
    unfold QuiltBoard.is_square_covered_at
    have h0 : wrapAdd (USIZE - 4) 4 - (USIZE - 4) = 0 := by decide
    simp [h0]

/-- C7 amended: `is_square_covered` is monotone downward over the sizes
that fit the board — on any board whose dimensions are valid `usize`
values, for sizes `s ≤ s2` with `s2` at most the width and the height, if
the query is `false` at `s` it is `false` at `s2`.  (Beyond the board the
release-mode wrap can answer `true` and debug builds panic, as the
counterexample records.) -/
theorem claim7_is_square_covered_monotone (b : QuiltBoard) (s s2 : Nat)
    (hwidth : b.dimension.width + 1 < USIZE) (hheight : b.dimension.height + 1 < USIZE)
    (hs2w : s2 ≤ b.dimension.width) (hs2h : s2 ≤ b.dimension.height)
    (hss : s ≤ s2) (hfalse : b.is_square_covered s = false) :
    b.is_square_covered s2 = false := by
  simp only [QuiltBoard.is_square_covered,
    wrap_count_exact b.dimension.height s2 hs2h hheight,
    wrap_count_exact b.dimension.width s2 hs2w hwidth]
  simp only [QuiltBoard.is_square_covered,
    wrap_count_exact b.dimension.height s (by omega) hheight,
    wrap_count_exact b.dimension.width s (by omega) hwidth] at hfalse
  rw [List.any_eq_false] at hfalse ⊢
  intro y hy
  rw [Bool.not_eq_true, List.any_eq_false]
  intro x hx
  rw [Bool.not_eq_true]
  have hy2 := List.mem_range.mp hy
  have hx2 := List.mem_range.mp hx
  have hanchor := hfalse y (List.mem_range.mpr (by omega))
  rw [Bool.not_eq_true, List.any_eq_false] at hanchor
  have hat := hanchor x (List.mem_range.mpr (by omega))
  rw [Bool.not_eq_true] at hat
  cases hval : b.is_square_covered_at ⟨x, y⟩ s2 with
  | false => rfl
  | true =>
    have hsub := is_square_covered_at_sub b ⟨x, y⟩ s s2 (by simp; omega) (by simp; omega)
      hss hval
    exact absurd hsub (by simp [hat])

/-- Witness for the amended C7: on an empty 2-by-2 board
`is_square_covered 1` is `false` and the theorem yields
`is_square_covered 2 = false`. -/
theorem claim7_is_square_covered_monotone_witness :
    (QuiltBoard.new ⟨2, 2⟩).is_square_covered 2 = false :=
  claim7_is_square_covered_monotone (QuiltBoard.new ⟨2, 2⟩) 1 2
    (by decide) (by decide) (by decide) (by decide) (by decide) (by decide)

/-- C10: `is_position_covered` is total and answers `false` on every
out-of-bounds position, and under the documented grid invariant an
in-bounds query only ever indexes the rows and columns within range. -/
theorem claim10_is_position_covered_oob_false (b : QuiltBoard) (p : Position) :
    (¬ (p.x < b.dimension.width ∧ p.y < b.dimension.height) →
      b.is_position_covered p = false) ∧
    (b.wf → p.x < b.dimension.width → p.y < b.dimension.height →
      p.y < b.rows.length ∧ p.x < (b.rows.getD p.y []).length) := by
  constructor
  · intro h
    simp only [QuiltBoard.is_position_covered, QuiltBoard.is_position_in_bounds,
      Dimension.contains, Bool.and_eq_false_iff]
    left
    simp only [Bool.and_eq_false_iff, decide_eq_false_iff_not, Nat.not_lt]
    omega
  · intro hwf hx hy
    have h1 : p.y < b.rows.length := by rw [hwf.1]; exact hy
    have h2 : (b.rows.getD p.y []).length = b.dimension.width := by
      rw [List.getD_eq_getElem b.rows [] h1]
      exact hwf.2 _ (List.getElem_mem h1)
    exact ⟨h1, by omega⟩

/-- Witness for C10: a 2-by-2 empty board answers `false` at the
out-of-bounds position (5, 0), and the in-bounds position (1, 0) indexes the
grid within range. -/
theorem claim10_is_position_covered_oob_false_witness :
    (QuiltBoard.new ⟨2, 2⟩).is_position_covered ⟨5, 0⟩ = false ∧
    (0 < (QuiltBoard.new ⟨2, 2⟩).rows.length ∧
      1 < ((QuiltBoard.new ⟨2, 2⟩).rows.getD 0 []).length) := by
  constructor
  · exact (claim10_is_position_covered_oob_false (QuiltBoard.new ⟨2, 2⟩) ⟨5, 0⟩).1
      (by decide)
  · exact (claim10_is_position_covered_oob_false (QuiltBoard.new ⟨2, 2⟩) ⟨1, 0⟩).2
      (by constructor <;> simp [QuiltBoard.new, QuiltBoard.wf])
      (by decide) (by decide)

/-- C5, evaluated at the failing input: the shuffle draws its swap partner
from the half-open interval `[0, i)` rather than `[0, i]` (Sattolo's
algorithm rather than Fisher-Yates), so on a two-element sequence it swaps
unconditionally: for every random source the result is the reversed
sequence, and the identity permutation, which uniform Fisher-Yates produces
with probability 1/2, can never occur. -/
theorem claim5_shuffle_two_elements_always_swap {α : Type} (src : Nat → Nat) (a b : α) :
    shuffle src [a, b] = [b, a] := by
  simp [shuffle, shuffle_aux, swapAt, Nat.mod_one, List.set]

/-- C4: `take d` fails with `TakeOverDepth` when `d` exceeds the configured
depth; otherwise fails with `OutOfPieces` when `d` is not an index into the
queue; otherwise returns the element at index `d`, and the new queue is the
old queue with exactly that element removed: the `d` skipped elements stay
at the front in order, all later elements keep their order, and the length
drops by exactly one. -/
theorem claim4_take_spec (pb : PieceBoard) (d : Nat) :
    (pb.depth < d → pb.take d = (pb, .error .TakeOverDepth)) ∧
    (d ≤ pb.depth → pb.piece_queue.length ≤ d →
      pb.take d = (pb, .error .OutOfPieces)) ∧
    (d ≤ pb.depth → d < pb.piece_queue.length →
      (∃ r : Piece, pb.piece_queue[d]? = some r ∧ (pb.take d).2 = .ok r) ∧
      (pb.take d).1.piece_queue = pb.piece_queue.eraseIdx d ∧
      (pb.take d).1.depth = pb.depth ∧
      (pb.take d).1.piece_queue.length + 1 = pb.piece_queue.length ∧
      (∀ i, i < d → (pb.take d).1.piece_queue[i]? = pb.piece_queue[i]?) ∧
      (∀ i, d ≤ i → (pb.take d).1.piece_queue[i]? = pb.piece_queue[i + 1]?)) := by
  refine ⟨?_, ?_, ?_⟩
  · intro h
    simp [PieceBoard.take, h]
  · intro h1 h2
    simp [PieceBoard.take, Nat.not_lt.mpr h1, h2, Nat.not_lt.mpr h2]
  · intro h1 h2
    have hnot : ¬ pb.depth < d := Nat.not_lt.mpr h1
    have hnot2 : ¬ pb.piece_queue.length ≤ d := Nat.not_le.mpr h2
    refine ⟨⟨pb.piece_queue.getD d default, ?_, ?_⟩, ?_, ?_, ?_, ?_, ?_⟩
    · rw [List.getD_eq_getElem _ _ h2, List.getElem?_eq_getElem h2]
    · simp [PieceBoard.take, hnot, hnot2]
    · simp [PieceBoard.take, hnot, hnot2, List.eraseIdx_eq_take_drop_succ]
    · simp [PieceBoard.take, hnot, hnot2]
    · simp only [PieceBoard.take, hnot, hnot2]
      simp [List.length_take, List.length_drop]
      omega
    · intro i hi
      simp only [PieceBoard.take, if_neg hnot, if_neg hnot2]
      rw [List.getElem?_append_left (by simp; omega)]
      rw [List.getElem?_take]
      simp [hi]
    · intro i hi
      simp only [PieceBoard.take, if_neg hnot, if_neg hnot2]
      rw [List.getElem?_append_right (by simp; omega)]
      rw [List.getElem?_drop]
      congr 1
      have : (pb.piece_queue.take d).length = d := by simp; omega
      omega

/-- Witness for C4: taking at depth 1 from the queue `[A, B, C]` with depth
limit 2 returns `B` and leaves `[A, C]`. -/
theorem claim4_take_spec_witness :
    ∃ r : Piece,
      (PieceBoard.mk [⟨⟨1, 1⟩, [⟨0, 0⟩], 1, 0, 0⟩, ⟨⟨1, 1⟩, [⟨0, 0⟩], 2, 0, 0⟩,
        ⟨⟨1, 1⟩, [⟨0, 0⟩], 3, 0, 0⟩] 2).piece_queue[1]? = some r ∧
      ((PieceBoard.mk [⟨⟨1, 1⟩, [⟨0, 0⟩], 1, 0, 0⟩, ⟨⟨1, 1⟩, [⟨0, 0⟩], 2, 0, 0⟩,
        ⟨⟨1, 1⟩, [⟨0, 0⟩], 3, 0, 0⟩] 2).take 1).2 = .ok r :=
  ((claim4_take_spec (PieceBoard.mk [⟨⟨1, 1⟩, [⟨0, 0⟩], 1, 0, 0⟩,
      ⟨⟨1, 1⟩, [⟨0, 0⟩], 2, 0, 0⟩, ⟨⟨1, 1⟩, [⟨0, 0⟩], 3, 0, 0⟩] 2) 1).2.2
    (by decide) (by decide)).1

/-- A square has a player exactly when its token stack is nonempty. -/
theorem has_player_iff (sq : Square) : sq.has_player = true ↔ sq.players ≠ [] := by
  simp [Square.has_player, List.isEmpty_iff]

/-- When any square holds a token, the current-player index is the first
occupied square: it is in range, occupied, and all earlier squares are
empty. -/
theorem current_occupied (tb : TimeBoard) (h : ∃ sq ∈ tb.squares, sq.players ≠ []) :
    tb.index_of_current_player < tb.squares.length ∧
    (tb.squares.getD tb.index_of_current_player default).players ≠ [] ∧
    ∀ j, j < tb.index_of_current_player → (tb.squares.getD j default).players = [] := by
  have hex : ∃ sq ∈ tb.squares, (fun sq => sq.has_player) sq = true := by
    obtain ⟨sq, hmem, hne⟩ := h
    exact ⟨sq, hmem, (has_player_iff sq).mpr hne⟩
  have hlt := List.findIdx_lt_length_of_exists hex
  unfold TimeBoard.index_of_current_player
  refine ⟨hlt, ?_, ?_⟩
  · rw [List.getD_eq_getElem tb.squares default hlt]
    exact (has_player_iff _).mp (List.findIdx_getElem (w := hlt))
  · intro j hj
    have hjlen : j < tb.squares.length := lt_trans hj hlt
    have hp := List.not_of_lt_findIdx hj
    rw [List.getD_eq_getElem tb.squares default hjlen]
    by_contra hne
    rw [(has_player_iff _).mpr hne] at hp
    simp at hp

/-- A board whose squares are all empty of tokens has no tokens. -/
theorem totalTokens_eq_zero (tb : TimeBoard) (h : ∀ sq ∈ tb.squares, sq.players = []) :
    tb.totalTokens = 0 := by
  unfold TimeBoard.totalTokens
  apply List.sum_eq_zero
  intro x hx
  rw [List.mem_map] at hx
  obtain ⟨sq, hmem, hback⟩ := hx
  rw [← hback, h sq hmem]
  rfl

/-- A board with tokens has an occupied square. -/
theorem exists_occupied (tb : TimeBoard) (h : 1 ≤ tb.totalTokens) :
    ∃ sq ∈ tb.squares, sq.players ≠ [] := by
  by_contra hno
  push_neg at hno
  rw [totalTokens_eq_zero tb (fun sq hmem => hno sq hmem)] at h
  omega

/-- C8: with at least two tokens on the track, `index_of_next_player`
returns the current square whenever it holds more than one token
(same-square ties take precedence), and otherwise the smallest strictly
higher occupied index; the current square is itself the lowest occupied
index. -/
theorem claim8_index_of_next_player (tb : TimeBoard) (h2 : 2 ≤ tb.totalTokens) :
    ((tb.squares.getD tb.index_of_current_player default).players ≠ [] ∧
      ∀ j, j < tb.index_of_current_player →
        (tb.squares.getD j default).players = []) ∧
    (1 < (tb.squares.getD tb.index_of_current_player default).players.length →
      tb.index_of_next_player = tb.index_of_current_player) ∧
    ((tb.squares.getD tb.index_of_current_player default).players.length ≤ 1 →
      tb.index_of_current_player < tb.index_of_next_player ∧
      tb.index_of_next_player < tb.squares.length ∧
      (tb.squares.getD tb.index_of_next_player default).players ≠ [] ∧
      ∀ j, tb.index_of_current_player < j → j < tb.index_of_next_player →
        (tb.squares.getD j default).players = []) := by
  obtain ⟨hlt, hocc, hfirst⟩ := current_occupied tb (exists_occupied tb (by omega))
  refine ⟨⟨hocc, hfirst⟩, ?_, ?_⟩
  · intro hgt
    unfold TimeBoard.index_of_next_player
    rw [if_pos hgt]
  · intro hle
    unfold TimeBoard.index_of_next_player
    rw [if_neg (by omega)]
    set fi := tb.index_of_current_player with hfi
    -- the first fi+1 squares hold at most one token in total
    have htake : ((tb.squares.take (fi + 1)).map (fun sq => sq.players.length)).sum ≤ 1 := by
      rw [List.take_succ, List.getElem?_eq_getElem hlt]
      simp only [List.map_append, List.sum_append]
      have hzero : ((tb.squares.take fi).map (fun sq => sq.players.length)).sum = 0 := by
        apply List.sum_eq_zero
        intro x hx
        rw [List.mem_map] at hx
        obtain ⟨sq, hmem, hback⟩ := hx
        rw [List.mem_iff_getElem] at hmem
        obtain ⟨i, hilen, hback2⟩ := hmem
        have hitake : i < fi := by
          have := hilen
          simp only [List.length_take] at this
          omega
        have : sq = tb.squares[i] := by
          rw [← hback2, List.getElem_take]
        rw [← hback, this]
        have := hfirst i hitake
        rw [List.getD_eq_getElem tb.squares default (by omega)] at this
        rw [this]
        rfl
      rw [hzero]
      simp only [Nat.zero_add, List.map_cons, List.map_nil, List.sum_cons, List.sum_nil]
      rw [List.getD_eq_getElem tb.squares default hlt] at hle
      simpa using hle
    -- so at least one token sits past the current square
    have hdrop : 1 ≤ ((tb.squares.drop (fi + 1)).map (fun sq => sq.players.length)).sum := by
      have hsplit := List.sum_take_add_sum_drop
        (tb.squares.map (fun sq => sq.players.length)) (fi + 1)
      rw [← List.map_take, ← List.map_drop] at hsplit
      unfold TimeBoard.totalTokens at h2
      omega
    have hex2 : ∃ sq ∈ tb.squares.drop (fi + 1), (fun sq => sq.has_player) sq = true := by
      by_contra hno
      push_neg at hno
      have : ((tb.squares.drop (fi + 1)).map (fun sq => sq.players.length)).sum = 0 := by
        apply List.sum_eq_zero
        intro x hx
        rw [List.mem_map] at hx
        obtain ⟨sq, hmem, hback⟩ := hx
        have hnp := hno sq hmem
        have hempty : sq.players = [] := by
          by_contra hne
          exact hnp ((has_player_iff sq).mpr hne)
        rw [← hback, hempty]
        rfl
      omega
    have hklt := List.findIdx_lt_length_of_exists hex2
    set k := (tb.squares.drop (fi + 1)).findIdx (fun sq => sq.has_player) with hk
    have hdroplen : (tb.squares.drop (fi + 1)).length = tb.squares.length - (fi + 1) := by
      simp
    refine ⟨by omega, by omega, ?_, ?_⟩
    · have hval := List.findIdx_getElem (w := hklt)
      rw [List.getD_eq_getElem?_getD, ← List.getElem?_drop, List.getElem?_eq_getElem hklt]
      simp only [Option.getD_some]
      exact (has_player_iff _).mp hval
    · intro j hj1 hj2
      have hrel : j - (fi + 1) < k := by omega
      have hp := List.not_of_lt_findIdx
        (show j - (fi + 1)
            < (tb.squares.drop (fi + 1)).findIdx (fun sq => sq.has_player) from hrel)
      have hidx : tb.squares[j]? = (tb.squares.drop (fi + 1))[j - (fi + 1)]? := by
        rw [List.getElem?_drop]
        congr 1
        omega
      rw [List.getD_eq_getElem?_getD, hidx,
        List.getElem?_eq_getElem (show j - (fi + 1) < (tb.squares.drop (fi + 1)).length
          by omega)]
      simp only [Option.getD_some]
      by_contra hne
      rw [(has_player_iff _).mpr hne] at hp
      simp at hp

/-- `getD` after `set`: the new value at the written in-range index, the
old value elsewhere. -/
theorem getD_set {α : Type} (l : List α) (i j : Nat) (v d : α) :
    (l.set i v).getD j d = if i = j ∧ i < l.length then v else l.getD j d := by
  rw [List.getD_eq_getElem?_getD, List.getD_eq_getElem?_getD, List.getElem?_set]
  by_cases hij : i = j
  · subst hij
    by_cases hlen : i < l.length
    · simp [hlen]
    · rw [if_pos rfl, if_neg hlen, Option.getD_none,
        if_neg (show ¬ (i = i ∧ i < l.length) from fun hcon => hlen hcon.2),
        List.getElem?_eq_none (show l.length ≤ i by omega), Option.getD_none]
  · simp [hij]

/-- `getD` on a `take` prefix. -/
theorem getD_take {α : Type} (l : List α) (m i : Nat) (d : α) :
    (l.take m).getD i d = if i < m then l.getD i d else d := by
  rw [List.getD_eq_getElem?_getD, List.getElem?_take]
  by_cases him : i < m
  · rw [if_pos him, if_pos him, ← List.getD_eq_getElem?_getD]
  · rw [if_neg him, if_neg him, Option.getD_none]

/-- `getD` on a `drop` suffix. -/
theorem getD_drop {α : Type} (l : List α) (n i : Nat) (d : α) :
    (l.drop n).getD i d = l.getD (n + i) d := by
  rw [List.getD_eq_getElem?_getD, List.getD_eq_getElem?_getD, List.getElem?_drop]

/-- `getD` on an append. -/
theorem getD_append {α : Type} (l1 l2 : List α) (i : Nat) (d : α) :
    (l1 ++ l2).getD i d
      = if i < l1.length then l1.getD i d else l2.getD (i - l1.length) d := by
  by_cases hi : i < l1.length
  · rw [if_pos hi, List.getD_eq_getElem?_getD, List.getD_eq_getElem?_getD,
      List.getElem?_append_left hi]
  · rw [if_neg hi, List.getD_eq_getElem?_getD, List.getD_eq_getElem?_getD,
      List.getElem?_append_right (by omega)]

/-- The updated slice computed by `sweep`: every square with its piece grant
removed. -/
theorem sweep_fst (l : List Square) :
    (sweep l).1 = l.map (fun sq => { sq with piece := none }) := by
  induction l with
  | nil => rfl
  | cons sq rest ih => simp [sweep, ih]

/-- The pieces collected by `sweep`: the unconsumed grants of the slice, in
slice order. -/
theorem sweep_pieces (l : List Square) :
    (sweep l).2.1 = l.filterMap (fun sq => sq.piece) := by
  induction l with
  | nil => rfl
  | cons sq rest ih =>
    cases hp : sq.piece <;> simp [sweep, ih, hp, List.filterMap_cons]

/-- The collect count of `sweep`: the number of set collect flags in the
slice. -/
theorem sweep_collects (l : List Square) :
    (sweep l).2.2 = l.countP (fun sq => sq.collect) := by
  induction l with
  | nil => rfl
  | cons sq rest ih =>
    by_cases hc : sq.collect <;> simp [sweep, ih, hc, List.countP_cons]

/-- Lists that agree pointwise on piece grants have the same collected
pieces. -/
theorem filterMap_piece_congr (l1 : List Square) :
    ∀ l2 : List Square, l1.length = l2.length →
    (∀ i, i < l1.length → (l1.getD i default).piece = (l2.getD i default).piece) →
    l1.filterMap (fun sq => sq.piece) = l2.filterMap (fun sq => sq.piece) := by
  induction l1 with
  | nil =>
    intro l2 hlen _
    rw [List.length_nil] at hlen
    rw [(List.length_eq_zero.mp hlen.symm)]
  | cons a l1 ih =>
    intro l2 hlen hpt
    cases l2 with
    | nil => simp at hlen
    | cons b l2 =>
      have h0 := hpt 0 (by simp)
      simp only [List.getD_cons_zero] at h0
      simp only [List.filterMap_cons, h0]
      have hrest := ih l2 (by simpa using hlen)
        (fun i hi => by simpa [List.getD_cons_succ] using hpt (i + 1) (by simpa using hi))
      rw [hrest]

/-- Lists that agree pointwise on collect flags have the same collect
count. -/
theorem countP_collect_congr (l1 : List Square) :
    ∀ l2 : List Square, l1.length = l2.length →
    (∀ i, i < l1.length → (l1.getD i default).collect = (l2.getD i default).collect) →
    l1.countP (fun sq => sq.collect) = l2.countP (fun sq => sq.collect) := by
  induction l1 with
  | nil =>
    intro l2 hlen _
    rw [List.length_nil] at hlen
    rw [(List.length_eq_zero.mp hlen.symm)]
  | cons a l1 ih =>
    intro l2 hlen hpt
    cases l2 with
    | nil => simp at hlen
    | cons b l2 =>
      have h0 := hpt 0 (by simp)
      simp only [List.getD_cons_zero] at h0
      simp only [List.countP_cons, h0]
      have hrest := ih l2 (by simpa using hlen)
        (fun i hi => by simpa [List.getD_cons_succ] using hpt (i + 1) (by simpa using hi))
      rw [hrest]

/-- Setting one square trades its old token stack for the new one in the
board-wide token multiset. -/
theorem flatten_players_set (l : List Square) :
    ∀ (i : Nat) (v : Square), i < l.length →
    ((((l.set i v).map (fun sq => sq.players)).flatten : List Player) : Multiset Player)
        + ((l.getD i default).players : Multiset Player)
      = (((l.map (fun sq => sq.players)).flatten : List Player) : Multiset Player)
        + (v.players : Multiset Player) := by
  induction l with
  | nil => intro i v hi; simp at hi
  | cons a l ih =>
    intro i v hi
    cases i with
    | zero =>
      simp only [List.set_cons_zero, List.map_cons, List.flatten_cons,
        List.getD_cons_zero, ← Multiset.coe_add]
      abel
    | succ i =>
      have hi2 : i < l.length := by simpa using hi
      have hrec := ih i v hi2
      simp only [List.set_cons_succ, List.map_cons, List.flatten_cons,
        List.getD_cons_succ, ← Multiset.coe_add]
      rw [add_assoc, add_assoc, hrec]

/-- C9: the multiset of player tokens on the track is invariant — the
initial state places exactly the full play order on square 0 of an empty
track, and every valid `move_player` call pops one token and pushes that
same token, so the union of all squares' tokens is preserved. -/
theorem claim9_token_multiset_invariant :
    (∀ (play_order : List Player) (squares : List Square),
      squares ≠ [] → (∀ sq ∈ squares, sq.players = []) →
      ((TimeBoard.from_squares play_order squares).allPlayers : Multiset Player)
        = (play_order : Multiset Player)) ∧
    (∀ (tb : TimeBoard) (d : Nat),
      (∃ sq ∈ tb.squares, sq.players ≠ []) → tb.is_game_over = false → 0 < d →
      ((tb.move_player d).1.allPlayers : Multiset Player)
        = (tb.allPlayers : Multiset Player)) := by
  constructor
  · intro play_order squares hne hempty
    unfold TimeBoard.from_squares TimeBoard.allPlayers
    have h0 : 0 < squares.length := List.length_pos.mpr hne
    have key := flatten_players_set squares 0
      { squares.getD 0 default with players := play_order } h0
    have hg0 : (squares.getD 0 default).players = [] := by
      apply hempty
      rw [List.getD_eq_getElem squares default h0]
      exact List.getElem_mem h0
    have hflat : (squares.map (fun sq => sq.players)).flatten = [] := by
      rw [List.flatten_eq_nil_iff]
      intro l hl
      rw [List.mem_map] at hl
      obtain ⟨sq, hsq, hback⟩ := hl
      rw [← hback, hempty sq hsq]
    rw [hg0, hflat] at key
    simpa using key
  · intro tb d htok hng hd
    obtain ⟨hlt, hocc, hfirst⟩ := current_occupied tb htok
    have hneq : tb.index_of_current_player ≠ tb.squares.length - 1 := by
      simpa [TimeBoard.is_game_over, TimeBoard.index_of_last_square] using hng
    set start := tb.index_of_current_player with hstartdef
    set stop := min (start + d) tb.index_of_last_square with hstopdef
    have hstoplt : stop < tb.squares.length := by
      rw [hstopdef]
      unfold TimeBoard.index_of_last_square
      omega
    have hss : start < stop := by
      rw [hstopdef]
      unfold TimeBoard.index_of_last_square
      omega
    set sq_start := tb.squares.getD start default with hsq_start
    set player := sq_start.players.getLast?.getD default with hplayer
    set squares1 := tb.squares.set start
      { sq_start with players := sq_start.players.dropLast } with hsquares1
    set sq_stop := squares1.getD stop default with hsq_stop
    set squares2 := squares1.set stop
      { sq_stop with players := sq_stop.players ++ [player] } with hsquares2
    have hmv : (tb.move_player d).1.squares
        = squares2.take (start + 1)
          ++ (sweep ((squares2.drop (start + 1)).take (stop - start))).1
          ++ squares2.drop (stop + 1) := rfl
    have hmap : (tb.move_player d).1.squares.map (fun sq => sq.players)
        = squares2.map (fun sq => sq.players) := by
      rw [hmv, sweep_fst]
      rw [List.map_append, List.map_append, List.map_map]
      have hcomp : ((fun sq : Square => sq.players)
          ∘ (fun sq : Square => { sq with piece := none }))
          = (fun sq : Square => sq.players) := rfl
      rw [hcomp]
      have hdd : squares2.drop (stop + 1)
          = (squares2.drop (start + 1)).drop (stop - start) := by
        rw [List.drop_drop]
        congr 1
        omega
      rw [hdd, List.append_assoc]
      conv_rhs => rw [← List.take_append_drop (start + 1) squares2]
      rw [List.map_append]
      congr 1
      conv_rhs => rw [← List.take_append_drop (stop - start) (squares2.drop (start + 1))]
      rw [List.map_append]
    unfold TimeBoard.allPlayers
    rw [hmap]
    have hlen1 : squares1.length = tb.squares.length := by
      rw [hsquares1, List.length_set]
    have key2 := flatten_players_set squares1 stop
      { sq_stop with players := sq_stop.players ++ [player] } (by omega)
    rw [← hsq_stop, ← hsquares2] at key2
    simp only [← Multiset.coe_add] at key2
    have key1 := flatten_players_set tb.squares start
      { sq_start with players := sq_start.players.dropLast } (by omega)
    rw [← hsq_start, ← hsquares1] at key1
    have hplayers_ne : sq_start.players ≠ [] := hocc
    have hP : sq_start.players = sq_start.players.dropLast ++ [player] := by
      rw [hplayer, List.getLast?_eq_getLast _ hplayers_ne, Option.getD_some]
      exact (List.dropLast_append_getLast hplayers_ne).symm
    have hsplit : ((sq_start.players : List Player) : Multiset Player)
        = ((sq_start.players.dropLast : List Player) : Multiset Player)
          + (([player] : List Player) : Multiset Player) := by
      rw [Multiset.coe_add, ← hP]
    rw [hsplit] at key1
    -- cancel the common stacks on both equations
    have hM1 : (((squares1.map (fun sq => sq.players)).flatten : List Player) : Multiset Player)
          + (([player] : List Player) : Multiset Player)
        = (((tb.squares.map (fun sq => sq.players)).flatten : List Player) : Multiset Player) := by
      have h := key1
      rw [show (((sq_start.players.dropLast : List Player) : Multiset Player)
          + (([player] : List Player) : Multiset Player))
          = (([player] : List Player) : Multiset Player)
          + ((sq_start.players.dropLast : List Player) : Multiset Player) from add_comm _ _,
        ← add_assoc] at h
      exact add_right_cancel h
    have hM2 : (((squares2.map (fun sq => sq.players)).flatten : List Player) : Multiset Player)
        = (((squares1.map (fun sq => sq.players)).flatten : List Player) : Multiset Player)
          + (([player] : List Player) : Multiset Player) := by
      have h := key2
      rw [show ((((sq_stop.players : List Player) : Multiset Player)
          + (([player] : List Player) : Multiset Player)))
          = (([player] : List Player) : Multiset Player)
          + ((sq_stop.players : List Player) : Multiset Player) from add_comm _ _,
        ← add_assoc] at h
      exact add_right_cancel h
    rw [hM2, hM1]

/-- `getD` inside the range of a piece-clearing `map`. -/
theorem getD_map_pieceNone (l : List Square) (i : Nat) (hi : i < l.length) :
    (l.map (fun sq => { sq with piece := none })).getD i default
      = { l.getD i default with piece := none } := by
  rw [List.getD_eq_getElem _ _ (by simpa using hi), List.getElem_map,
    List.getD_eq_getElem _ _ hi]

/-- C1: a valid `move_player d` call moves exactly the current player's
token from its square `start` to `stop = min (start + d, last)`; each square
in `(start, stop]`, in increasing order, yields its unconsumed piece grant
into the result (and keeps `none` afterwards) and contributes one collect
per set collect flag, with the flag never cleared; the returned distance is
`stop - start` and every other square is untouched. -/
theorem claim1_move_player_spec (tb : TimeBoard) (d : Nat)
    (hd : 0 < d) (htok : ∃ sq ∈ tb.squares, sq.players ≠ [])
    (hng : tb.is_game_over = false) :
    tb.index_of_current_player
        < min (tb.index_of_current_player + d) tb.index_of_last_square ∧
    (tb.move_player d).2.distance
        = min (tb.index_of_current_player + d) tb.index_of_last_square
          - tb.index_of_current_player ∧
    (tb.move_player d).2.pieces
        = ((tb.squares.drop (tb.index_of_current_player + 1)).take
            (min (tb.index_of_current_player + d) tb.index_of_last_square
              - tb.index_of_current_player)).filterMap (fun sq => sq.piece) ∧
    (tb.move_player d).2.collects
        = ((tb.squares.drop (tb.index_of_current_player + 1)).take
            (min (tb.index_of_current_player + d) tb.index_of_last_square
              - tb.index_of_current_player)).countP (fun sq => sq.collect) ∧
    (tb.move_player d).1.squares.length = tb.squares.length ∧
    (∀ i, i < tb.index_of_current_player →
      (tb.move_player d).1.squares.getD i default = tb.squares.getD i default) ∧
    (tb.move_player d).1.squares.getD tb.index_of_current_player default
      = { tb.squares.getD tb.index_of_current_player default with
          players :=
            (tb.squares.getD tb.index_of_current_player default).players.dropLast } ∧
    (∀ i, tb.index_of_current_player < i →
      i < min (tb.index_of_current_player + d) tb.index_of_last_square →
      (tb.move_player d).1.squares.getD i default
        = { tb.squares.getD i default with piece := none }) ∧
    (tb.move_player d).1.squares.getD
        (min (tb.index_of_current_player + d) tb.index_of_last_square) default
      = { tb.squares.getD (min (tb.index_of_current_player + d)
            tb.index_of_last_square) default with
          piece := none,
          players :=
            (tb.squares.getD (min (tb.index_of_current_player + d)
                tb.index_of_last_square) default).players
              ++ [(tb.squares.getD tb.index_of_current_player
                  default).players.getLast?.getD default] } ∧
    (∀ i, min (tb.index_of_current_player + d) tb.index_of_last_square < i →
      (tb.move_player d).1.squares.getD i default = tb.squares.getD i default) := by
  obtain ⟨hlt, hocc, hfirst⟩ := current_occupied tb htok
  have hneq : tb.index_of_current_player ≠ tb.squares.length - 1 := by
    simpa [TimeBoard.is_game_over, TimeBoard.index_of_last_square] using hng
  set start := tb.index_of_current_player with hstartdef
  set stop := min (start + d) tb.index_of_last_square with hstopdef
  have hstoplt : stop < tb.squares.length := by
    rw [hstopdef]
    unfold TimeBoard.index_of_last_square
    omega
  have hss : start < stop := by
    rw [hstopdef]
    unfold TimeBoard.index_of_last_square
    omega
  set sq_start := tb.squares.getD start default with hsq_start
  set player := sq_start.players.getLast?.getD default with hplayer
  set squares1 := tb.squares.set start
    { sq_start with players := sq_start.players.dropLast } with hsquares1
  set sq_stop := squares1.getD stop default with hsq_stop
  set squares2 := squares1.set stop
    { sq_stop with players := sq_stop.players ++ [player] } with hsquares2
  have hlen1 : squares1.length = tb.squares.length := by
    rw [hsquares1, List.length_set]
  have hlen2 : squares2.length = tb.squares.length := by
    rw [hsquares2, List.length_set, hlen1]
  have hsq_stop_eq : sq_stop = tb.squares.getD stop default := by
    rw [hsq_stop, hsquares1, getD_set,
      if_neg (fun hc => (show start ≠ stop by omega) hc.1)]
  have hg2 : ∀ i, squares2.getD i default
      = if i = stop then { sq_stop with players := sq_stop.players ++ [player] }
        else if i = start then { sq_start with players := sq_start.players.dropLast }
        else tb.squares.getD i default := by
    intro i
    by_cases h1 : i = stop
    · rw [if_pos h1, hsquares2, getD_set, if_pos ⟨h1.symm, by omega⟩]
    · rw [if_neg h1, hsquares2, getD_set, if_neg (fun hc => h1 hc.1.symm)]
      by_cases h2 : i = start
      · rw [if_pos h2, hsquares1, getD_set, if_pos ⟨h2.symm, by omega⟩]
      · rw [if_neg h2, hsquares1, getD_set, if_neg (fun hc => h2 hc.1.symm)]
  have hpiece2 : ∀ i, (squares2.getD i default).piece
      = (tb.squares.getD i default).piece := by
    intro i
    rw [hg2 i]
    split_ifs with h1 h2
    · rw [h1, hsq_stop_eq]
    · rw [h2, hsq_start]
    · rfl
  have hcollect2 : ∀ i, (squares2.getD i default).collect
      = (tb.squares.getD i default).collect := by
    intro i
    rw [hg2 i]
    split_ifs with h1 h2
    · rw [h1, hsq_stop_eq]
    · rw [h2, hsq_start]
    · rfl
  set seg2 := (squares2.drop (start + 1)).take (stop - start) with hseg2
  set seg := (tb.squares.drop (start + 1)).take (stop - start) with hseg
  have hmv1 : (tb.move_player d).1.squares
      = squares2.take (start + 1) ++ (sweep seg2).1 ++ squares2.drop (stop + 1) := rfl
  have hmvd : (tb.move_player d).2.distance = stop - start := rfl
  have hmvp : (tb.move_player d).2.pieces = (sweep seg2).2.1 := rfl
  have hmvc : (tb.move_player d).2.collects = (sweep seg2).2.2 := rfl
  have hseglen2 : seg2.length = stop - start := by
    rw [hseg2, List.length_take, List.length_drop]
    omega
  have hseglen : seg.length = stop - start := by
    rw [hseg, List.length_take, List.length_drop]
    omega
  have hsegpieces : seg2.filterMap (fun sq => sq.piece)
      = seg.filterMap (fun sq => sq.piece) := by
    apply filterMap_piece_congr
    · rw [hseglen2, hseglen]
    · intro i hi
      rw [hseglen2] at hi
      rw [hseg2, hseg, getD_take, getD_take, if_pos hi, if_pos hi,
        getD_drop, getD_drop]
      exact hpiece2 (start + 1 + i)
  have hsegcollects : seg2.countP (fun sq => sq.collect)
      = seg.countP (fun sq => sq.collect) := by
    apply countP_collect_congr
    · rw [hseglen2, hseglen]
    · intro i hi
      rw [hseglen2] at hi
      rw [hseg2, hseg, getD_take, getD_take, if_pos hi, if_pos hi,
        getD_drop, getD_drop]
      exact hcollect2 (start + 1 + i)
  have hg3 : ∀ i, (tb.move_player d).1.squares.getD i default
      = if i < start + 1 then squares2.getD i default
        else if i ≤ stop then { squares2.getD i default with piece := none }
        else squares2.getD i default := by
    intro i
    rw [hmv1, List.append_assoc, getD_append]
    have htakelen : (squares2.take (start + 1)).length = start + 1 := by
      rw [List.length_take]
      omega
    rw [htakelen]
    by_cases hi1 : i < start + 1
    · rw [if_pos hi1, if_pos hi1, getD_take, if_pos hi1]
    · rw [if_neg hi1, if_neg hi1, getD_append, sweep_fst, List.length_map, hseglen2]
      by_cases hi2 : i ≤ stop
      · rw [if_pos (by omega : i - (start + 1) < stop - start), if_pos hi2]
        rw [getD_map_pieceNone seg2 (i - (start + 1)) (by omega)]
        rw [hseg2, getD_take, if_pos (by omega : i - (start + 1) < stop - start),
          getD_drop]
        rw [show start + 1 + (i - (start + 1)) = i by omega]
      · rw [if_neg (by omega : ¬ i - (start + 1) < stop - start), if_neg hi2]
        rw [getD_drop]
        rw [show stop + 1 + (i - (start + 1) - (stop - start)) = i by omega]
  refine ⟨hss, ?_, ?_, ?_, ?_, ?_, ?_, ?_, ?_, ?_⟩
  · rw [hmvd]
  · rw [hmvp, sweep_pieces, hsegpieces]
  · rw [hmvc, sweep_collects, hsegcollects]
  · rw [hmv1, List.length_append, List.length_append, List.length_take, sweep_fst,
      List.length_map, hseglen2, List.length_drop]
    omega
  · intro i hi
    rw [hg3 i, if_pos (by omega), hg2 i, if_neg (by omega), if_neg (by omega)]
  · rw [hg3 start, if_pos (by omega), hg2 start, if_neg (by omega), if_pos rfl]
  · intro i hi1 hi2
    rw [hg3 i, if_neg (by omega), if_pos (by omega), hg2 i, if_neg (by omega),
      if_neg (by omega)]
  · rw [hg3 stop, if_neg (by omega), if_pos (by omega), hg2 stop, if_pos rfl,
      hsq_stop_eq]
  · intro i hi
    rw [hg3 i, if_neg (by omega), if_neg (by omega), hg2 i, if_neg (by omega),
      if_neg (by omega)]

/-- Witness for C1: on the example track, moving the current player by 3
crosses squares 1-3 and collects exactly the piece granted on square 3. -/
theorem claim1_move_player_spec_witness :
    (exampleBoard.move_player 3).2.pieces
      = ((exampleBoard.squares.drop (exampleBoard.index_of_current_player + 1)).take
          (min (exampleBoard.index_of_current_player + 3)
              exampleBoard.index_of_last_square
            - exampleBoard.index_of_current_player)).filterMap (fun sq => sq.piece) :=
  (claim1_move_player_spec exampleBoard 3 (by decide) (by decide) (by decide)).2.2.1

/-- Witness for C8: on the example track both players sit on square 0, so
the same-square tie wins and the next player is on the current square. -/
theorem claim8_index_of_next_player_witness :
    exampleBoard.index_of_next_player = exampleBoard.index_of_current_player :=
  (claim8_index_of_next_player exampleBoard (by decide)).2.1 (by decide)

/-- Witness for C6: instantiates the bijection theorem at a concrete
transformation, dimension, and cells, discharging the containment
hypotheses. -/
theorem claim6_transformation_apply_bijection_witness :
    ((Transformation.mk .Clockwise90 .Horizontal).apply_dim ⟨3, 2⟩).contains
      ((Transformation.mk .Clockwise90 .Horizontal).apply ⟨3, 2⟩ ⟨2, 1⟩) = true ∧
    ∃! p : Position, Dimension.contains ⟨3, 2⟩ p = true ∧
      (Transformation.mk .Clockwise90 .Horizontal).apply ⟨3, 2⟩ p = ⟨1, 2⟩ := by
  constructor
  · exact (claim6_transformation_apply_bijection ⟨.Clockwise90, .Horizontal⟩ ⟨3, 2⟩).1
      ⟨2, 1⟩ (by decide)
  · exact (claim6_transformation_apply_bijection ⟨.Clockwise90, .Horizontal⟩ ⟨3, 2⟩).2.1
      ⟨1, 2⟩ (by decide)

end Quilting
